import Mathlib

/-!
Shallow embedding of the tao-bot program: a line-oriented parser that turns a
markdown-like document into a Book (sections containing chapters containing
passages), and a selector that picks a random chapter and returns its passages
joined into one text block.

The parser state, branch structure, string operations and dictionary
operations are translated directly from the Python source (parse_book and
random_phrase in src/tao-bot.py).  Python dictionaries are embedded as
association lists in insertion order; Python truthiness of the optional
section and chapter strings (None and the empty string are falsy) is embedded
by the function truthy.  The random choices of the selector are embedded as
arbitrary natural-number indices reduced modulo the list length, so that a
statement quantified over all indices covers every outcome of the random
choice.
-/

namespace TaoBot

/-- The set of characters stripped by the Python str.strip method
(ASCII whitespace). -/
def isPySpace (c : Char) : Bool :=
  c == ' ' || c == '\t' || c == '\n' || c == '\r' || c == '\x0b' || c == '\x0c'

/-- Strip leading and trailing whitespace from a list of characters. -/
def pyStripList (cs : List Char) : List Char :=
  ((cs.dropWhile isPySpace).reverse.dropWhile isPySpace).reverse

/-- Embedding of the Python expression line.strip(). -/
def pyStrip (s : String) : String :=
  String.mk (pyStripList s.data)

/-- Embedding of the Python expression line.lstrip with the hash character:
drop every leading hash. -/
def lstripHash (s : String) : String :=
  String.mk (s.data.dropWhile (fun c => c == '#'))

/-- Embedding of the Python test line.startswith of two hashes and a space:
a level-1 (section) heading marker. -/
def isSec (l : String) : Bool :=
  match l.data with
  | '#' :: '#' :: ' ' :: _ => true
  | _ => false

/-- Embedding of the Python test line.startswith of three hashes and a space:
a level-2 (chapter) heading marker. -/
def isChap (l : String) : Bool :=
  match l.data with
  | '#' :: '#' :: '#' :: ' ' :: _ => true
  | _ => false

/-- The name recorded for a heading line: drop the leading hashes, then strip
surrounding whitespace (the Python expression line.lstrip of hashes followed
by strip). -/
def headName (l : String) : String :=
  pyStrip (lstripHash l)

/-- Embedding of the Python expression sep.join(xs). -/
def pyJoin (sep : String) : List String → String
  | [] => ""
  | [x] => x
  | x :: xs => x ++ sep ++ pyJoin sep xs

/-- A section value: a Python dict from chapter name to passage list,
embedded as an association list in insertion order. -/
abbrev Chapters := List (String × List String)

/-- The Book: a Python dict from section name to chapters, embedded as an
association list in insertion order. -/
abbrev Book := List (String × Chapters)

/-- The keys of an embedded Python dict, in insertion order. -/
def keys {α : Type} (m : List (String × α)) : List String :=
  m.map (fun p => p.1)

/-- Embedding of the Python membership test: k in m. -/
def keyMem {α : Type} (k : String) (m : List (String × α)) : Bool :=
  m.any (fun p => p.1 == k)

/-- Embedding of a Python dict lookup m[k], with a default for the
(unreachable in the program) missing-key case. -/
def findD {α : Type} (k : String) (m : List (String × α)) (d : α) : α :=
  match m with
  | [] => d
  | (k₁, v) :: t => if k₁ == k then v else findD k t d

/-- Embedding of a Python in-place update of the value stored at key k
(no change when the key is missing, which is unreachable in the program). -/
def mapUpdate {α : Type} (k : String) (f : α → α) (m : List (String × α)) :
    List (String × α) :=
  match m with
  | [] => []
  | (k₁, v) :: t => if k₁ == k then (k₁, f v) :: t else (k₁, v) :: mapUpdate k f t

/-- The running state of parse_book: the book built so far, the current
section name, the current chapter name, and the passage buffer. -/
structure PState where
  book : Book
  sec : Option String
  chap : Option String
  phrase : List String
deriving DecidableEq

/-- The two structural errors of parse_book (the Python code prints a
duplicate-section or duplicate-chapter diagnostic and exits). -/
inductive ParseError where
  | DuplicateSectionError (s : String)
  | DuplicateChapterError (c : String)
deriving DecidableEq

/-- Python truthiness of an optional string: None and the empty string are
falsy. -/
def truthy : Option String → Bool
  | none => false
  | some s => !(s == "")

/-- One iteration of the loop body of parse_book, translated branch by
branch from the Python source. -/
def step (st : PState) (line : String) : Except ParseError PState :=
  if isSec line then
    let s := headName line
    if keyMem s st.book then
      .error (.DuplicateSectionError s)
    else
      .ok ⟨st.book ++ [(s, [])], some s, none, []⟩
  else if truthy st.sec && isChap line then
    let s := st.sec.getD ""
    let c := headName line
    if keyMem c (findD s st.book []) then
      .error (.DuplicateChapterError c)
    else
      .ok { st with book := mapUpdate s (fun chs => chs ++ [(c, [])]) st.book,
                    chap := some c }
  else if truthy st.sec && truthy st.chap then
    let s := st.sec.getD ""
    let c := st.chap.getD ""
    if pyStrip line ≠ "" then
      .ok { st with phrase := st.phrase ++ [pyStrip line] }
    else if st.phrase ≠ [] then
      let b := mapUpdate s (mapUpdate c (fun ps => ps ++ [pyJoin "\n" st.phrase])) st.book
      .ok { st with book := b, phrase := [] }
    else
      .ok st
  else
    .ok st

/-- The loop of parse_book over the lines, stopping at the first error
(the Python code exits the process there). -/
def processLines (st : PState) : List String → Except ParseError PState
  | [] => .ok st
  | l :: ls =>
    match step st l with
    | .error e => .error e
    | .ok st₁ => processLines st₁ ls

/-- The initial state of parse_book: empty book, no section, no chapter,
empty passage buffer. -/
def initState : PState := ⟨[], none, none, []⟩

/-- parse_book: run the loop from the initial state and return the book;
the trailing passage buffer is discarded. -/
def parse_book (lines : List String) : Except ParseError Book :=
  match processLines initState lines with
  | .error e => .error e
  | .ok st => .ok st.book

/-- The parser state after the first k lines of the document. -/
def stateAt (ls : List String) (k : Nat) : Except ParseError PState :=
  processLines initState (ls.take k)

/-- The two failure conditions of random_phrase, named as in the design
document: choosing from an empty book and choosing from a section with no
chapters. -/
inductive SelectError where
  | EmptyBookError
  | EmptyChapterError
deriving DecidableEq

/-- random_phrase: choose a section by the first random index, a chapter in
it by the second, and return the title together with the passages of the
chapter joined by a double newline.  The random indices are arbitrary
naturals reduced modulo the number of alternatives, so quantifying over them
covers every outcome of the uniform random choice. -/
def random_phrase (book : Book) (i j : Nat) : Except SelectError (String × String) :=
  if book.length = 0 then
    .error .EmptyBookError
  else
    let sp := book.getD (i % book.length) ("", [])
    if sp.2.length = 0 then
      .error .EmptyChapterError
    else
      let cp := sp.2.getD (j % sp.2.length) ("", [])
      .ok (sp.1 ++ " - Chapter " ++ cp.1, pyJoin "\n\n" cp.2)

/-- The document of the design document test section, as frozen in the
claims: six lines ending with the line Line C, no trailing blank line. -/
def docNoTrail : List String :=
  ["## Section One", "### 1", "Line A", "Line B", "", "Line C"]

/-- The same document with a trailing blank line after Line C. -/
def docTrail : List String := docNoTrail ++ [""]

/-- The one-passage book: the trailing passage Line C is absent. -/
def bookOne : Book := [("Section One", [("1", ["Line A\nLine B"])])]

/-- The two-passage book claimed in the design document. -/
def bookTwo : Book := [("Section One", [("1", ["Line A\nLine B", "Line C"])])]

/-- The passages recorded in a book under a section name and a chapter name
(empty when either name is absent). -/
def passages (b : Book) (s c : String) : List String :=
  findD c (findD s b []) []

/-- The recorded names of the level-1 heading lines of a document. -/
def sectionNames (ls : List String) : List String :=
  (ls.filter (fun l => isSec l)).map headName

/-- The section chosen by random_phrase for a given random index. -/
def chosenSec (book : Book) (i : Nat) : String × Chapters :=
  book.getD (i % book.length) ("", [])

/-- The chapter chosen by random_phrase for given random indices. -/
def chosenChap (book : Book) (i j : Nat) : String × List String :=
  (chosenSec book i).2.getD (j % (chosenSec book i).2.length) ("", [])

/-! ### Lemmas about the embedded dictionary operations -/

theorem keyMem_iff {α : Type} {k : String} {m : List (String × α)} :
    keyMem k m = true ↔ k ∈ keys m := by
  simp only [keyMem, keys, List.any_eq_true, beq_iff_eq, List.mem_map]

theorem keys_append {α : Type} (m₁ m₂ : List (String × α)) :
    keys (m₁ ++ m₂) = keys m₁ ++ keys m₂ := by
  simp [keys]

theorem keys_mapUpdate {α : Type} (k : String) (f : α → α) (m : List (String × α)) :
    keys (mapUpdate k f m) = keys m := by
  induction m with
  | nil => rfl
  | cons a t ih =>
    obtain ⟨k₁, v⟩ := a
    by_cases h : k₁ = k
    · simp [mapUpdate, keys, h]
    · simp [mapUpdate, keys, h] at *
      exact ih

theorem findD_not_mem {α : Type} {k : String} {m : List (String × α)} (d : α)
    (h : keyMem k m = false) : findD k m d = d := by
  induction m with
  | nil => rfl
  | cons a t ih =>
    obtain ⟨k₁, v⟩ := a
    simp [keyMem, List.any_cons] at h
    simp [findD, h.1]
    exact ih (by simpa [keyMem] using h.2)

theorem findD_append_of_mem {α : Type} {k : String} {m : List (String × α)}
    (m₂ : List (String × α)) (d : α) (h : keyMem k m = true) :
    findD k (m ++ m₂) d = findD k m d := by
  induction m with
  | nil => simp [keyMem] at h
  | cons a t ih =>
    obtain ⟨k₁, v⟩ := a
    by_cases hk : k₁ = k
    · simp [findD, hk]
    · simp [keyMem, List.any_cons, hk] at h
      simp [findD, hk]
      exact ih (by simpa [keyMem] using h)

theorem findD_append_not_mem {α : Type} {k : String} {m : List (String × α)}
    (m₂ : List (String × α)) (d : α) (h : keyMem k m = false) :
    findD k (m ++ m₂) d = findD k m₂ d := by
  induction m with
  | nil => rfl
  | cons a t ih =>
    obtain ⟨k₁, v⟩ := a
    simp [keyMem, List.any_cons] at h
    simp [findD, h.1]
    exact ih (by simpa [keyMem] using h.2)

theorem mapUpdate_not_mem {α : Type} {k : String} {f : α → α}
    {m : List (String × α)} (h : keyMem k m = false) : mapUpdate k f m = m := by
  induction m with
  | nil => rfl
  | cons a t ih =>
    obtain ⟨k₁, v⟩ := a
    simp [keyMem, List.any_cons] at h
    simp [mapUpdate, h.1]
    exact ih (by simpa [keyMem] using h.2)

theorem findD_mapUpdate_self {α : Type} {k : String} {f : α → α}
    {m : List (String × α)} (d : α) (h : keyMem k m = true) :
    findD k (mapUpdate k f m) d = f (findD k m d) := by
  induction m with
  | nil => simp [keyMem] at h
  | cons a t ih =>
    obtain ⟨k₁, v⟩ := a
    by_cases hk : k₁ = k
    · simp [mapUpdate, findD, hk]
    · simp [keyMem, List.any_cons, hk] at h
      simp [mapUpdate, findD, hk]
      exact ih (by simpa [keyMem] using h)

theorem findD_mapUpdate_ne {α : Type} {k k₂ : String} (f : α → α)
    (m : List (String × α)) (d : α) (h : k ≠ k₂) :
    findD k₂ (mapUpdate k f m) d = findD k₂ m d := by
  induction m with
  | nil => rfl
  | cons a t ih =>
    obtain ⟨k₁, v⟩ := a
    by_cases hk : k₁ = k
    · subst hk
      simp [mapUpdate, findD, h]
    · by_cases hk₂ : k₁ = k₂
      · simp [mapUpdate, findD, hk, hk₂, Ne.symm h]
      · simp [mapUpdate, findD, hk, hk₂]
        exact ih

/-! ### Lemmas about the embedded string operations -/

theorem dropWhile_idem {α : Type} (p : α → Bool) (l : List α) :
    List.dropWhile p (List.dropWhile p l) = List.dropWhile p l := by
  induction l with
  | nil => rfl
  | cons a t ih =>
    by_cases h : p a
    · rw [List.dropWhile_cons_of_pos h]
      exact ih
    · rw [List.dropWhile_cons_of_neg h, List.dropWhile_cons_of_neg h]

theorem head_dropWhile_false {α : Type} {p : α → Bool} {l t : List α} {a : α}
    (h : List.dropWhile p l = a :: t) : p a = false := by
  induction l with
  | nil => simp at h
  | cons b l ih =>
    by_cases hb : p b
    · rw [List.dropWhile_cons_of_pos hb] at h
      exact ih h
    · rw [List.dropWhile_cons_of_neg hb] at h
      injection h with h₁ h₂
      rw [← h₁]
      simpa using hb

theorem pyStripList_idem (cs : List Char) :
    pyStripList (pyStripList cs) = pyStripList cs := by
  cases hb : pyStripList cs with
  | nil => rfl
  | cons x t =>
    have hrev : (pyStripList cs).reverse =
        List.dropWhile isPySpace (List.dropWhile isPySpace cs).reverse := by
      simp [pyStripList]
    obtain ⟨u, hu⟩ : ∃ u, u ++ (pyStripList cs).reverse =
        (List.dropWhile isPySpace cs).reverse := by
      rw [hrev]
      exact List.dropWhile_suffix isPySpace
    have ha : List.dropWhile isPySpace cs = pyStripList cs ++ u.reverse := by
      have hr := congrArg List.reverse hu
      simpa using hr.symm
    have hx : isPySpace x = false := by
      apply @head_dropWhile_false Char isPySpace cs (t ++ u.reverse) x
      rw [ha, hb]
      simp
    have htrail : List.dropWhile isPySpace (x :: t).reverse = (x :: t).reverse := by
      rw [← hb, hrev, dropWhile_idem]
    unfold pyStripList
    rw [List.dropWhile_cons_of_neg (by simp [hx]), htrail, List.reverse_reverse]

theorem pyStrip_idem (s : String) : pyStrip (pyStrip s) = pyStrip s := by
  simp [pyStrip, pyStripList_idem]

theorem pyStripList_length_le (cs : List Char) :
    (pyStripList cs).length ≤ (List.dropWhile isPySpace cs).length := by
  unfold pyStripList
  calc ((List.dropWhile isPySpace cs).reverse.dropWhile isPySpace).reverse.length
      = ((List.dropWhile isPySpace cs).reverse.dropWhile isPySpace).length := by simp
    _ ≤ (List.dropWhile isPySpace cs).reverse.length :=
        (List.dropWhile_sublist isPySpace).length_le
    _ = (List.dropWhile isPySpace cs).length := by simp

theorem data_pyStrip (s : String) : (pyStrip s).data = pyStripList s.data := rfl

theorem pyStrip_eq_self_head {x : String} {c : Char} {t : List Char}
    (h : pyStrip x = x) (hd : x.data = c :: t) : isPySpace c = false := by
  by_contra hc
  have hc' : isPySpace c = true := by
    cases hcc : isPySpace c
    · exact absurd hcc hc
    · rfl
  have hdata : pyStripList x.data = x.data := by
    have := congrArg String.data h
    rw [data_pyStrip] at this
    exact this
  have hlen : (pyStripList x.data).length < x.data.length := by
    rw [hd]
    calc (pyStripList (c :: t)).length
        ≤ (List.dropWhile isPySpace (c :: t)).length := pyStripList_length_le _
      _ = (List.dropWhile isPySpace t).length := by
          rw [List.dropWhile_cons_of_pos hc']
      _ ≤ t.length := (List.dropWhile_sublist isPySpace).length_le
      _ < (c :: t).length := by simp
  rw [hdata] at hlen
  exact absurd hlen (lt_irrefl _)

theorem pyStripList_ne_nil {c : Char} {t : List Char} (h : isPySpace c = false) :
    pyStripList (c :: t) ≠ [] := by
  unfold pyStripList
  rw [List.dropWhile_cons_of_neg (by simp [h])]
  intro hcon
  have : (c :: t).reverse.dropWhile isPySpace = [] := by
    have := congrArg List.reverse hcon
    simpa using this
  rw [List.dropWhile_eq_nil_iff] at this
  have hcmem : c ∈ (c :: t).reverse := by simp
  have := this c hcmem
  rw [h] at this
  exact absurd this (by simp)

theorem string_ne_empty_data {x : String} (h : x ≠ "") :
    ∃ c t, x.data = c :: t := by
  cases hd : x.data with
  | nil =>
    exfalso
    apply h
    have : x = String.mk x.data := rfl
    rw [this, hd]
  | cons c t => exact ⟨c, t, rfl⟩

theorem pyStrip_ne_empty {x : String} {c : Char} {t : List Char}
    (hd : x.data = c :: t) (h : isPySpace c = false) : pyStrip x ≠ "" := by
  intro hcon
  have : pyStripList x.data = [] := by
    have := congrArg String.data hcon
    rw [data_pyStrip] at this
    exact this
  rw [hd] at this
  exact absurd this (pyStripList_ne_nil h)

theorem isSec_iff {l : String} :
    isSec l = true ↔ ∃ r, l.data = '#' :: '#' :: ' ' :: r := by
  unfold isSec
  split
  · next r heq => simp [heq]
  · next hne =>
    simp only [Bool.false_eq_true, false_iff]
    rintro ⟨r, hr⟩
    exact hne r hr

theorem isChap_iff {l : String} :
    isChap l = true ↔ ∃ r, l.data = '#' :: '#' :: '#' :: ' ' :: r := by
  unfold isChap
  split
  · next r heq => simp [heq]
  · next hne =>
    simp only [Bool.false_eq_true, false_iff]
    rintro ⟨r, hr⟩
    exact hne r hr

theorem isSec_of_isChap {l : String} (h : isChap l = true) : isSec l = false := by
  obtain ⟨r, hr⟩ := isChap_iff.mp h
  cases hs : isSec l
  · rfl
  · obtain ⟨r₂, hr₂⟩ := isSec_iff.mp hs
    rw [hr] at hr₂
    injection hr₂ with e₁ e₂
    injection e₂ with e₃ e₄
    injection e₄ with e₅ e₆
    exact absurd e₅ (by decide)

theorem headName_sec {l : String} {r : List Char}
    (h : l.data = '#' :: '#' :: ' ' :: r) :
    headName l = pyStrip (String.mk (l.data.drop 3)) := by
  unfold headName lstripHash pyStrip
  rw [h]
  have h₁ : List.dropWhile (fun c => c == '#') ('#' :: '#' :: ' ' :: r) =
      ' ' :: r := by
    rw [List.dropWhile_cons_of_pos (by decide), List.dropWhile_cons_of_pos (by decide),
      List.dropWhile_cons_of_neg (by decide)]
  rw [h₁]
  have h₂ : pyStripList (' ' :: r) = pyStripList r := by
    unfold pyStripList
    rw [List.dropWhile_cons_of_pos (by decide)]
  rw [h₂]
  rfl

theorem headName_chap {l : String} {r : List Char}
    (h : l.data = '#' :: '#' :: '#' :: ' ' :: r) :
    headName l = pyStrip (String.mk (l.data.drop 4)) := by
  unfold headName lstripHash pyStrip
  rw [h]
  have h₁ : List.dropWhile (fun c => c == '#') ('#' :: '#' :: '#' :: ' ' :: r) =
      ' ' :: r := by
    rw [List.dropWhile_cons_of_pos (by decide), List.dropWhile_cons_of_pos (by decide),
      List.dropWhile_cons_of_pos (by decide), List.dropWhile_cons_of_neg (by decide)]
  rw [h₁]
  have h₂ : pyStripList (' ' :: r) = pyStripList r := by
    unfold pyStripList
    rw [List.dropWhile_cons_of_pos (by decide)]
  rw [h₂]
  rfl

theorem truthy_some {s : String} : truthy (some s) = true ↔ s ≠ "" := by
  simp [truthy]

/-! ### Bridging lemmas between parse_book and the parsing loop -/

theorem parse_book_eq_ok {ls : List String} {st : PState}
    (h : processLines initState ls = .ok st) : parse_book ls = .ok st.book := by
  simp [parse_book, h]

theorem parse_book_eq_error {ls : List String} {e : ParseError}
    (h : processLines initState ls = .error e) : parse_book ls = .error e := by
  simp [parse_book, h]

theorem parse_book_ok_elim {ls : List String} {b : Book}
    (h : parse_book ls = .ok b) :
    ∃ st, processLines initState ls = .ok st ∧ st.book = b := by
  unfold parse_book at h
  cases hp : processLines initState ls with
  | error e => rw [hp] at h; exact absurd h (by simp)
  | ok st =>
    rw [hp] at h
    refine ⟨st, rfl, ?_⟩
    simpa using h

theorem parse_book_error_elim {ls : List String} {e : ParseError}
    (h : parse_book ls = .error e) : processLines initState ls = .error e := by
  unfold parse_book at h
  cases hp : processLines initState ls with
  | error e₁ => rw [hp] at h; simpa using h
  | ok st => rw [hp] at h; exact absurd h (by simp)

/-! ### Characterizations of the single-line step, one per source branch -/

theorem step_sec_dup {st : PState} {l : String} (h₁ : isSec l = true)
    (h₂ : keyMem (headName l) st.book = true) :
    step st l = .error (.DuplicateSectionError (headName l)) := by
  simp [step, h₁, h₂]

theorem step_sec_new {st : PState} {l : String} (h₁ : isSec l = true)
    (h₂ : keyMem (headName l) st.book = false) :
    step st l = .ok ⟨st.book ++ [(headName l, [])], some (headName l), none, []⟩ := by
  simp [step, h₁, h₂]

theorem step_chap_dup {st : PState} {l s : String} (h₀ : isSec l = false)
    (hs : st.sec = some s) (ht : truthy st.sec = true) (h₁ : isChap l = true)
    (h₂ : keyMem (headName l) (findD s st.book []) = true) :
    step st l = .error (.DuplicateChapterError (headName l)) := by
  simp [step, h₀, hs, ht, h₁, hs ▸ ht, h₂]

theorem step_chap_new {st : PState} {l s : String} (h₀ : isSec l = false)
    (hs : st.sec = some s) (ht : truthy st.sec = true) (h₁ : isChap l = true)
    (h₂ : keyMem (headName l) (findD s st.book []) = false) :
    step st l = .ok ⟨mapUpdate s (fun chs => chs ++ [(headName l, [])]) st.book,
      st.sec, some (headName l), st.phrase⟩ := by
  simp [step, h₀, hs, ht, h₁, hs ▸ ht, h₂]

theorem step_content_line {st : PState} {l : String} (h₀ : isSec l = false)
    (h₁ : isChap l = false) (hts : truthy st.sec = true)
    (htc : truthy st.chap = true) (hl : pyStrip l ≠ "") :
    step st l = .ok ⟨st.book, st.sec, st.chap, st.phrase ++ [pyStrip l]⟩ := by
  simp [step, h₀, h₁, hts, htc, hl]

theorem step_blank_flush {st : PState} {l s c : String} (h₀ : isSec l = false)
    (h₁ : isChap l = false) (hs : st.sec = some s) (hc : st.chap = some c)
    (hts : truthy st.sec = true) (htc : truthy st.chap = true)
    (hl : pyStrip l = "") (hp : st.phrase ≠ []) :
    step st l = .ok ⟨mapUpdate s
      (mapUpdate c (fun ps => ps ++ [pyJoin "\n" st.phrase])) st.book,
      st.sec, st.chap, []⟩ := by
  simp [step, h₀, h₁, hs, hc, hts, htc, hs ▸ hts, hc ▸ htc, hl, hp]

theorem step_blank_noop {st : PState} {l : String} (h₀ : isSec l = false)
    (h₁ : isChap l = false) (hts : truthy st.sec = true)
    (htc : truthy st.chap = true) (hl : pyStrip l = "") (hp : st.phrase = []) :
    step st l = .ok st := by
  simp [step, h₀, h₁, hts, htc, hl, hp]

theorem step_ignored_nosec {st : PState} {l : String} (h₀ : isSec l = false)
    (hts : truthy st.sec = false) : step st l = .ok st := by
  simp [step, h₀, hts]

theorem step_ignored_nochap {st : PState} {l : String} (h₀ : isSec l = false)
    (h₁ : isChap l = false) (htc : truthy st.chap = false) :
    step st l = .ok st := by
  simp [step, h₀, h₁, htc]

theorem truthy_elim {o : Option String} (h : truthy o = true) :
    ∃ s, o = some s ∧ s ≠ "" := by
  cases o with
  | none => simp [truthy] at h
  | some s => exact ⟨s, rfl, by simpa [truthy] using h⟩

/-- Full inversion of a successful step: one disjunct per source branch that
can produce a new state (the ignored and no-op branches are merged into the
final disjunct, where the state is unchanged). -/
theorem step_ok_cases {st stm : PState} {l : String} (h : step st l = .ok stm) :
    (isSec l = true ∧ keyMem (headName l) st.book = false ∧
      stm = ⟨st.book ++ [(headName l, [])], some (headName l), none, []⟩) ∨
    (isSec l = false ∧ isChap l = true ∧
      ∃ s, st.sec = some s ∧ s ≠ "" ∧
        keyMem (headName l) (findD s st.book []) = false ∧
        stm = ⟨mapUpdate s (fun chs => chs ++ [(headName l, [])]) st.book,
               some s, some (headName l), st.phrase⟩) ∨
    (isSec l = false ∧ isChap l = false ∧ truthy st.sec = true ∧
      truthy st.chap = true ∧ pyStrip l ≠ "" ∧
      stm = ⟨st.book, st.sec, st.chap, st.phrase ++ [pyStrip l]⟩) ∨
    (isSec l = false ∧ isChap l = false ∧ pyStrip l = "" ∧ st.phrase ≠ [] ∧
      ∃ s c, st.sec = some s ∧ s ≠ "" ∧ st.chap = some c ∧ c ≠ "" ∧
        stm = ⟨mapUpdate s (mapUpdate c (fun ps => ps ++ [pyJoin "\n" st.phrase]))
               st.book, some s, some c, []⟩) ∨
    (isSec l = false ∧ (truthy st.sec = false ∨ isChap l = false) ∧ stm = st) := by
  cases h₁ : isSec l with
  | true =>
    cases h₂ : keyMem (headName l) st.book with
    | true =>
      rw [step_sec_dup h₁ h₂] at h
      exact absurd h (by simp)
    | false =>
      rw [step_sec_new h₁ h₂] at h
      injection h with h₃
      exact Or.inl ⟨rfl, rfl, h₃.symm⟩
  | false =>
    cases h₂ : truthy st.sec with
    | false =>
      rw [step_ignored_nosec h₁ h₂] at h
      injection h with h₃
      exact Or.inr (Or.inr (Or.inr (Or.inr ⟨rfl, Or.inl rfl, h₃.symm⟩)))
    | true =>
      obtain ⟨s, hs, hs'⟩ := truthy_elim h₂
      cases h₃ : isChap l with
      | true =>
        cases h₄ : keyMem (headName l) (findD s st.book []) with
        | true =>
          rw [step_chap_dup h₁ hs h₂ h₃ h₄] at h
          exact absurd h (by simp)
        | false =>
          rw [step_chap_new h₁ hs h₂ h₃ h₄] at h
          injection h with h₅
          refine Or.inr (Or.inl ⟨rfl, rfl, s, hs, hs', h₄, ?_⟩)
          rw [← h₅, hs]
      | false =>
        cases h₄ : truthy st.chap with
        | false =>
          rw [step_ignored_nochap h₁ h₃ h₄] at h
          injection h with h₅
          exact Or.inr (Or.inr (Or.inr (Or.inr ⟨rfl, Or.inr rfl, h₅.symm⟩)))
        | true =>
          obtain ⟨c, hc, hc'⟩ := truthy_elim h₄
          by_cases h₅ : pyStrip l = ""
          · by_cases h₆ : st.phrase = []
            · rw [step_blank_noop h₁ h₃ h₂ h₄ h₅ h₆] at h
              injection h with h₇
              exact Or.inr (Or.inr (Or.inr (Or.inr ⟨rfl, Or.inr rfl, h₇.symm⟩)))
            · rw [step_blank_flush h₁ h₃ hs hc h₂ h₄ h₅ h₆] at h
              injection h with h₇
              refine Or.inr (Or.inr (Or.inr (Or.inl
                ⟨rfl, rfl, h₅, h₆, s, c, hs, hs', hc, hc', ?_⟩)))
              rw [← h₇, hs, hc]
          · rw [step_content_line h₁ h₃ h₂ h₄ h₅] at h
            injection h with h₇
            exact Or.inr (Or.inr (Or.inl ⟨rfl, rfl, rfl, rfl, h₅, h₇.symm⟩))

/-! ### Composition lemmas for the parsing loop -/

theorem processLines_append_ok {st st₁ : PState} {as : List String}
    (bs : List String) (h : processLines st as = .ok st₁) :
    processLines st (as ++ bs) = processLines st₁ bs := by
  induction as generalizing st with
  | nil =>
    simp [processLines] at h
    simp [h]
  | cons l t ih =>
    simp only [processLines, List.cons_append] at *
    cases hst : step st l with
    | error e => simp [hst] at h
    | ok stm =>
      simp [hst] at h ⊢
      exact ih h

theorem processLines_append_error {st : PState} {as : List String}
    (bs : List String) {e : ParseError} (h : processLines st as = .error e) :
    processLines st (as ++ bs) = .error e := by
  induction as generalizing st with
  | nil => simp [processLines] at h
  | cons l t ih =>
    simp only [processLines, List.cons_append] at *
    cases hst : step st l with
    | error e₁ => simp [hst] at h ⊢; exact h
    | ok stm =>
      simp [hst] at h ⊢
      exact ih h

theorem processLines_split_ok {st st₁ : PState} {as bs : List String}
    (h : processLines st (as ++ bs) = .ok st₁) :
    ∃ stm, processLines st as = .ok stm ∧ processLines stm bs = .ok st₁ := by
  cases hm : processLines st as with
  | error e => rw [processLines_append_error bs hm] at h; exact absurd h (by simp)
  | ok stm => exact ⟨stm, rfl, by rw [processLines_append_ok bs hm] at h; exact h⟩

theorem processLines_snoc_ok {st st₂ : PState} {as : List String} {l : String}
    (h : processLines st (as ++ [l]) = .ok st₂) :
    ∃ stm, processLines st as = .ok stm ∧ step stm l = .ok st₂ := by
  obtain ⟨stm, h₁, h₂⟩ := processLines_split_ok h
  refine ⟨stm, h₁, ?_⟩
  simp only [processLines] at h₂
  cases hst : step stm l with
  | error e => simp [hst] at h₂
  | ok x => simp [hst, processLines] at h₂; rw [h₂]

theorem take_succ_getD {α : Type} {ls : List α} {k : Nat} (d : α)
    (h : k < ls.length) : ls.take (k + 1) = ls.take k ++ [ls.getD k d] := by
  rw [List.take_succ]
  congr 1
  rw [List.getD_eq_getElem?_getD, List.getElem?_eq_getElem h]
  rfl

theorem getD_take {α : Type} {ls : List α} {i k : Nat} (d : α) (h : i < k) :
    (ls.take k).getD i d = ls.getD i d := by
  rw [List.getD_eq_getElem?_getD, List.getD_eq_getElem?_getD,
    List.getElem?_take_of_lt h]

theorem keyMem_append_self {α : Type} (m : List (String × α)) (k : String)
    (v : α) : keyMem k (m ++ [(k, v)]) = true := by
  simp [keyMem, List.any_append]

theorem keyMem_append_false {α : Type} {k : String} {m m₂ : List (String × α)}
    (h : keyMem k (m ++ m₂) = false) : keyMem k m = false := by
  unfold keyMem at *
  rw [List.any_append] at h
  cases hx : m.any (fun p => p.1 == k) with
  | false => rfl
  | true => rw [hx] at h; simp at h

theorem keyMem_mapUpdate {α : Type} (k k₁ : String) (f : α → α)
    (m : List (String × α)) : keyMem k (mapUpdate k₁ f m) = keyMem k m := by
  cases hx : keyMem k (mapUpdate k₁ f m) with
  | true =>
    have hmem := keyMem_iff.mp hx
    rw [keys_mapUpdate] at hmem
    exact (keyMem_iff.mpr hmem).symm
  | false =>
    cases hy : keyMem k m with
    | false => rfl
    | true =>
      have hmem := keyMem_iff.mp hy
      rw [← keys_mapUpdate k₁ f] at hmem
      rw [keyMem_iff.mpr hmem] at hx
      exact absurd hx (by simp)

theorem stateAt_ok_of_ok {ls : List String} {st₁ : PState}
    (h : processLines initState ls = .ok st₁) (k : Nat) :
    ∃ stk, stateAt ls k = .ok stk := by
  unfold stateAt
  cases hp : processLines initState (ls.take k) with
  | error e =>
    exfalso
    have herr := processLines_append_error (ls.drop k) hp
    rw [List.take_append_drop] at herr
    rw [herr] at h
    exact absurd h (by simp)
  | ok stk => exact ⟨stk, rfl⟩

theorem stateAt_succ_ok {ls : List String} {st₁ : PState} {k : Nat}
    (h : processLines initState ls = .ok st₁) (hk : k < ls.length) :
    ∃ stk stk₁, stateAt ls k = .ok stk ∧ stateAt ls (k + 1) = .ok stk₁ ∧
      step stk (ls.getD k "") = .ok stk₁ := by
  obtain ⟨stk₁, h₁⟩ := stateAt_ok_of_ok h (k + 1)
  have h₂ : stateAt ls (k + 1) =
      processLines initState (ls.take k ++ [ls.getD k ""]) := by
    unfold stateAt
    rw [take_succ_getD _ hk]
  have h₃ := h₁
  rw [h₂] at h₃
  obtain ⟨stk, h₄, h₅⟩ := processLines_snoc_ok h₃
  exact ⟨stk, stk₁, h₄, h₁, h₅⟩

theorem stateAt_trans {ls : List String} {i j : Nat} {sti stj : PState}
    (hij : i ≤ j) (hi : stateAt ls i = .ok sti) (hj : stateAt ls j = .ok stj) :
    processLines sti ((ls.take j).drop i) = .ok stj := by
  have hsplit : ls.take j = ls.take i ++ (ls.take j).drop i := by
    have hii : ls.take i = (ls.take j).take i := by
      rw [List.take_take]
      congr 1
      omega
    rw [hii, List.take_append_drop]
  unfold stateAt at hj hi
  rw [hsplit] at hj
  obtain ⟨stm, hm₁, hm₂⟩ := processLines_split_ok hj
  rw [hi] at hm₁
  injection hm₁ with he
  rw [← he] at hm₂
  exact hm₂

theorem processLines_error_point {ls : List String} {st : PState}
    {e : ParseError} (h : processLines st ls = .error e) :
    ∃ k stk, k < ls.length ∧ processLines st (ls.take k) = .ok stk ∧
      step stk (ls.getD k "") = .error e := by
  induction ls generalizing st with
  | nil => simp [processLines] at h
  | cons l t ih =>
    simp only [processLines] at h
    cases hst : step st l with
    | error e₁ =>
      rw [hst] at h
      injection h with he
      refine ⟨0, st, by simp, rfl, ?_⟩
      simp only [List.getD_cons_zero]
      rw [hst, he]
    | ok stm =>
      rw [hst] at h
      obtain ⟨k, stk, hk, hrun, hstep⟩ := ih h
      refine ⟨k + 1, stk, by simpa using Nat.succ_lt_succ hk, ?_,
        by simpa using hstep⟩
      simp only [List.take_succ_cons, processLines]
      rw [hst]
      exact hrun

/-- Inversion of a failing step: either a duplicate section on a level-1
heading line, or a duplicate chapter on a level-2 heading line while an
active section is open. -/
theorem step_error_cases {st : PState} {l : String} {e : ParseError}
    (h : step st l = .error e) :
    (isSec l = true ∧ keyMem (headName l) st.book = true ∧
      e = .DuplicateSectionError (headName l)) ∨
    (isSec l = false ∧ isChap l = true ∧
      ∃ s, st.sec = some s ∧ s ≠ "" ∧
        keyMem (headName l) (findD s st.book []) = true ∧
        e = .DuplicateChapterError (headName l)) := by
  cases h₁ : isSec l with
  | true =>
    cases h₂ : keyMem (headName l) st.book with
    | true =>
      rw [step_sec_dup h₁ h₂] at h
      injection h with h₃
      exact Or.inl ⟨rfl, rfl, h₃.symm⟩
    | false =>
      rw [step_sec_new h₁ h₂] at h
      exact absurd h (by simp)
  | false =>
    cases h₂ : truthy st.sec with
    | false =>
      rw [step_ignored_nosec h₁ h₂] at h
      exact absurd h (by simp)
    | true =>
      obtain ⟨s, hs, hs'⟩ := truthy_elim h₂
      cases h₃ : isChap l with
      | true =>
        cases h₄ : keyMem (headName l) (findD s st.book []) with
        | true =>
          rw [step_chap_dup h₁ hs h₂ h₃ h₄] at h
          injection h with h₅
          exact Or.inr ⟨rfl, rfl, s, hs, hs', h₄, h₅.symm⟩
        | false =>
          rw [step_chap_new h₁ hs h₂ h₃ h₄] at h
          exact absurd h (by simp)
      | false =>
        cases h₄ : truthy st.chap with
        | false =>
          rw [step_ignored_nochap h₁ h₃ h₄] at h
          exact absurd h (by simp)
        | true =>
          obtain ⟨c, hc, hc'⟩ := truthy_elim h₄
          by_cases h₅ : pyStrip l = ""
          · by_cases h₆ : st.phrase = []
            · rw [step_blank_noop h₁ h₃ h₂ h₄ h₅ h₆] at h
              exact absurd h (by simp)
            · rw [step_blank_flush h₁ h₃ hs hc h₂ h₄ h₅ h₆] at h
              exact absurd h (by simp)
          · rw [step_content_line h₁ h₃ h₂ h₄ h₅] at h
            exact absurd h (by simp)

/-! ### Lemmas about the passages stored in a book -/

theorem passages_nil (s c : String) : passages [] s c = [] := rfl

theorem passages_append_new (b : Book) (n s c : String) :
    passages (b ++ [(n, [])]) s c = passages b s c := by
  unfold passages
  cases h : keyMem s b with
  | true => rw [findD_append_of_mem _ _ h]
  | false =>
    rw [findD_append_not_mem _ _ h, findD_not_mem _ h]
    by_cases hn : n = s <;> simp [findD, hn]

theorem passages_mapUpdate_addchap {b : Book} {s₀ c₀ : String}
    (h : keyMem c₀ (findD s₀ b []) = false) (s c : String) :
    passages (mapUpdate s₀ (fun chs => chs ++ [(c₀, [])]) b) s c =
      passages b s c := by
  unfold passages
  by_cases hs : s₀ = s
  · subst hs
    cases hm : keyMem s₀ b with
    | false => rw [mapUpdate_not_mem hm]
    | true =>
      rw [findD_mapUpdate_self _ hm]
      cases hc : keyMem c (findD s₀ b []) with
      | true => rw [findD_append_of_mem _ _ hc]
      | false =>
        rw [findD_append_not_mem _ _ hc, findD_not_mem _ hc]
        by_cases hcc : c₀ = c
        · subst hcc
          rw [h] at hc
          simp [findD]
        · simp [findD, hcc]
  · rw [findD_mapUpdate_ne _ _ _ hs]

theorem mem_passages_mapUpdate_append {b : Book} {s₀ c₀ q s c p : String}
    (h : p ∈ passages (mapUpdate s₀ (mapUpdate c₀ (fun ps => ps ++ [q])) b) s c) :
    p ∈ passages b s c ∨ p = q := by
  unfold passages at h ⊢
  by_cases hs : s₀ = s
  · subst hs
    cases hm : keyMem s₀ b with
    | false =>
      rw [mapUpdate_not_mem hm] at h
      exact Or.inl h
    | true =>
      rw [findD_mapUpdate_self _ hm] at h
      by_cases hc : c₀ = c
      · subst hc
        cases hcm : keyMem c₀ (findD s₀ b []) with
        | false =>
          rw [mapUpdate_not_mem hcm] at h
          exact Or.inl h
        | true =>
          rw [findD_mapUpdate_self _ hcm] at h
          rcases List.mem_append.mp h with h₁ | h₁
          · exact Or.inl h₁
          · exact Or.inr (by simpa using h₁)
      · rw [findD_mapUpdate_ne _ _ _ hc] at h
        exact Or.inl h
  · rw [findD_mapUpdate_ne _ _ _ hs] at h
    exact Or.inl h

/-- Every key of the book was present initially or was recorded from a
level-1 heading line of the processed lines. -/
theorem keys_provenance {ls : List String} {st st₁ : PState}
    (h : processLines st ls = .ok st₁) :
    ∀ n ∈ keys st₁.book, n ∈ keys st.book ∨
      ∃ i, i < ls.length ∧ isSec (ls.getD i "") = true ∧
        headName (ls.getD i "") = n := by
  induction ls generalizing st with
  | nil =>
    intro n hn
    simp only [processLines] at h
    injection h with h₁
    subst h₁
    exact Or.inl hn
  | cons l t ih =>
    intro n hn
    simp only [processLines] at h
    cases hst : step st l with
    | error e => rw [hst] at h; exact absurd h (by simp)
    | ok stm =>
      rw [hst] at h
      rcases ih h n hn with hold | ⟨i, hi, hsec, hname⟩
      · rcases step_ok_cases hst with ⟨hsec, hnew, hm⟩ |
          ⟨_, _, s₀, _, _, _, hm⟩ | ⟨_, _, _, _, _, hm⟩ |
          ⟨_, _, _, _, s₀, c₀, _, _, _, _, hm⟩ | ⟨_, _, hm⟩
        · rw [hm] at hold
          simp only at hold
          rw [keys_append] at hold
          rcases List.mem_append.mp hold with h₁ | h₁
          · exact Or.inl h₁
          · refine Or.inr ⟨0, by simp, ?_, ?_⟩
            · simpa using hsec
            · simp only [List.getD_cons_zero]
              have h₂ : n = headName l := by simpa [keys] using h₁
              exact h₂.symm
        · rw [hm] at hold
          simp only at hold
          rw [keys_mapUpdate] at hold
          exact Or.inl hold
        · rw [hm] at hold
          exact Or.inl hold
        · rw [hm] at hold
          simp only at hold
          rw [keys_mapUpdate] at hold
          exact Or.inl hold
        · rw [hm] at hold
          exact Or.inl hold
      · exact Or.inr ⟨i + 1, by simpa using Nat.succ_lt_succ hi,
          by simpa using hsec, by simpa using hname⟩

/-- The parser succeeds only if the recorded names of the level-1 heading
lines are pairwise distinct and none of them is already a key of the
starting book. -/
theorem sectionNames_nodup {ls : List String} {st st₁ : PState}
    (h : processLines st ls = .ok st₁) :
    (sectionNames ls).Nodup ∧ ∀ n ∈ sectionNames ls, keyMem n st.book = false := by
  induction ls generalizing st with
  | nil => simp [sectionNames]
  | cons l t ih =>
    simp only [processLines] at h
    cases hst : step st l with
    | error e => rw [hst] at h; exact absurd h (by simp)
    | ok stm =>
      rw [hst] at h
      have IH := ih h
      cases h₁ : isSec l with
      | false =>
        have hnames : sectionNames (l :: t) = sectionNames t := by
          simp [sectionNames, h₁]
        rw [hnames]
        refine ⟨IH.1, ?_⟩
        intro n hn
        have hkeys : keys stm.book = keys st.book := by
          rcases step_ok_cases hst with ⟨hsec, _, _⟩ |
            ⟨_, _, s₀, _, _, _, hm⟩ | ⟨_, _, _, _, _, hm⟩ |
            ⟨_, _, _, _, s₀, c₀, _, _, _, _, hm⟩ | ⟨_, _, hm⟩
          · rw [h₁] at hsec; exact absurd hsec (by simp)
          · rw [hm]; simp only; rw [keys_mapUpdate]
          · rw [hm]
          · rw [hm]; simp only; rw [keys_mapUpdate]
          · rw [hm]
        have hfalse := IH.2 n hn
        cases hx : keyMem n st.book with
        | false => rfl
        | true =>
          have hmem := keyMem_iff.mp hx
          rw [← hkeys] at hmem
          rw [keyMem_iff.mpr hmem] at hfalse
          exact hfalse
      | true =>
        cases h₂ : keyMem (headName l) st.book with
        | true =>
          rw [step_sec_dup h₁ h₂] at hst
          exact absurd hst (by simp)
        | false =>
          rw [step_sec_new h₁ h₂] at hst
          injection hst with hm
          have hnames : sectionNames (l :: t) = headName l :: sectionNames t := by
            simp [sectionNames, h₁]
          rw [hnames]
          constructor
          · rw [List.nodup_cons]
            refine ⟨?_, IH.1⟩
            intro hmem
            have hfalse := IH.2 _ hmem
            rw [← hm] at hfalse
            simp only at hfalse
            rw [keyMem_append_self] at hfalse
            exact absurd hfalse (by simp)
          · intro n hn
            rcases List.mem_cons.mp hn with rfl | hn
            · exact h₂
            · have hfalse := IH.2 n hn
              rw [← hm] at hfalse
              exact keyMem_append_false hfalse

/-- Every chapter key of a section of the final book was present initially or
was recorded from a level-2 heading line processed while that very section
was the active current section. -/
theorem chapters_provenance {ls : List String} {st st₁ : PState}
    (h : processLines st ls = .ok st₁) :
    ∀ s c, c ∈ keys (findD s st₁.book []) →
      c ∈ keys (findD s st.book []) ∨
      ∃ i sti, i < ls.length ∧ processLines st (ls.take i) = .ok sti ∧
        sti.sec = some s ∧ s ≠ "" ∧ isChap (ls.getD i "") = true ∧
        headName (ls.getD i "") = c := by
  induction ls generalizing st with
  | nil =>
    intro s c hc
    simp only [processLines] at h
    injection h with h₁
    subst h₁
    exact Or.inl hc
  | cons l t ih =>
    intro s c hc
    simp only [processLines] at h
    cases hst : step st l with
    | error e => rw [hst] at h; exact absurd h (by simp)
    | ok stm =>
      rw [hst] at h
      rcases ih h s c hc with hold | ⟨i, sti, hi, hrun, hsec, hsne, hchap, hname⟩
      · rcases step_ok_cases hst with ⟨_, hnew, hm⟩ |
          ⟨_, hchap, s₀, hs₀, hs₀ne, hnew, hm⟩ | ⟨_, _, _, _, _, hm⟩ |
          ⟨_, _, _, _, s₀, c₀, hs₀, hs₀ne, hc₀, hc₀ne, hm⟩ | ⟨_, _, hm⟩
        · rw [hm] at hold
          simp only at hold
          cases hmem : keyMem s st.book with
          | true =>
            rw [findD_append_of_mem _ _ hmem] at hold
            exact Or.inl hold
          | false =>
            exfalso
            rw [findD_append_not_mem _ _ hmem] at hold
            by_cases hnm : headName l = s
            · simp [findD, hnm] at hold
              simp [keys] at hold
            · simp [findD, hnm] at hold
              simp [keys] at hold
        · rw [hm] at hold
          simp only at hold
          by_cases hss : s₀ = s
          · subst hss
            cases hmem : keyMem s₀ st.book with
            | false =>
              rw [mapUpdate_not_mem hmem] at hold
              exact Or.inl hold
            | true =>
              rw [findD_mapUpdate_self _ hmem] at hold
              rw [keys_append] at hold
              rcases List.mem_append.mp hold with h₁ | h₁
              · exact Or.inl h₁
              · simp only [keys, List.map_cons, List.map_nil,
                  List.mem_singleton] at h₁
                refine Or.inr ⟨0, st, by simp, rfl, hs₀, hs₀ne, ?_, ?_⟩
                · simpa using hchap
                · simp only [List.getD_cons_zero]
                  exact h₁.symm
          · rw [findD_mapUpdate_ne _ _ _ hss] at hold
            exact Or.inl hold
        · rw [hm] at hold
          exact Or.inl hold
        · rw [hm] at hold
          simp only at hold
          by_cases hss : s₀ = s
          · subst hss
            cases hmem : keyMem s₀ st.book with
            | false =>
              rw [mapUpdate_not_mem hmem] at hold
              exact Or.inl hold
            | true =>
              rw [findD_mapUpdate_self _ hmem, keys_mapUpdate] at hold
              exact Or.inl hold
          · rw [findD_mapUpdate_ne _ _ _ hss] at hold
            exact Or.inl hold
        · rw [hm] at hold
          exact Or.inl hold
      · refine Or.inr ⟨i + 1, sti, by simpa using Nat.succ_lt_succ hi, ?_,
          hsec, hsne, by simpa using hchap, by simpa using hname⟩
        simp only [List.take_succ_cons, processLines]
        rw [hst]
        exact hrun

/-- Chapter keys of a section only accumulate while processing succeeds. -/
theorem chapters_mono {ls : List String} {st st₁ : PState}
    (h : processLines st ls = .ok st₁) {s c : String}
    (hc : c ∈ keys (findD s st.book [])) :
    c ∈ keys (findD s st₁.book []) := by
  induction ls generalizing st with
  | nil =>
    simp only [processLines] at h
    injection h with h₁
    subst h₁
    exact hc
  | cons l t ih =>
    simp only [processLines] at h
    cases hst : step st l with
    | error e => rw [hst] at h; exact absurd h (by simp)
    | ok stm =>
      rw [hst] at h
      apply ih h
      rcases step_ok_cases hst with ⟨_, hnew, hm⟩ |
        ⟨_, _, s₀, _, _, hnew, hm⟩ | ⟨_, _, _, _, _, hm⟩ |
        ⟨_, _, _, _, s₀, c₀, _, _, _, _, hm⟩ | ⟨_, _, hm⟩
      · rw [hm]
        simp only
        cases hmem : keyMem s st.book with
        | true =>
          rw [findD_append_of_mem _ _ hmem]
          exact hc
        | false =>
          rw [findD_not_mem _ hmem] at hc
          simp [keys] at hc
      · rw [hm]
        simp only
        by_cases hss : s₀ = s
        · subst hss
          cases hmem : keyMem s₀ st.book with
          | false =>
            rw [mapUpdate_not_mem hmem]
            exact hc
          | true =>
            rw [findD_mapUpdate_self _ hmem, keys_append]
            exact List.mem_append_left _ hc
        · rw [findD_mapUpdate_ne _ _ _ hss]
          exact hc
      · rw [hm]
        exact hc
      · rw [hm]
        simp only
        by_cases hss : s₀ = s
        · subst hss
          cases hmem : keyMem s₀ st.book with
          | false =>
            rw [mapUpdate_not_mem hmem]
            exact hc
          | true =>
            rw [findD_mapUpdate_self _ hmem, keys_mapUpdate]
            exact hc
        · rw [findD_mapUpdate_ne _ _ _ hss]
          exact hc
      · rw [hm]
        exact hc

/-- The current section name, when set, is always a key of the book. -/
theorem sec_keyMem {ls : List String} {st st₁ : PState}
    (h : processLines st ls = .ok st₁)
    (hinv : ∀ s, st.sec = some s → keyMem s st.book = true) :
    ∀ s, st₁.sec = some s → keyMem s st₁.book = true := by
  induction ls generalizing st with
  | nil =>
    simp only [processLines] at h
    injection h with h₁
    subst h₁
    exact hinv
  | cons l t ih =>
    simp only [processLines] at h
    cases hst : step st l with
    | error e => rw [hst] at h; exact absurd h (by simp)
    | ok stm =>
      rw [hst] at h
      apply ih h
      rcases step_ok_cases hst with ⟨_, hnew, hm⟩ |
        ⟨_, _, s₀, hs₀, _, _, hm⟩ | ⟨_, _, _, _, _, hm⟩ |
        ⟨_, _, _, _, s₀, c₀, hs₀, _, _, _, hm⟩ | ⟨_, _, hm⟩
      · intro s hs
        rw [hm] at hs ⊢
        simp only at hs ⊢
        injection hs with hs
        subst hs
        exact keyMem_append_self _ _ _
      · intro s hs
        rw [hm] at hs ⊢
        simp only at hs ⊢
        injection hs with hs
        subst hs
        rw [keyMem_mapUpdate]
        exact hinv _ hs₀
      · intro s hs
        rw [hm] at hs ⊢
        simp only at hs ⊢
        exact hinv s hs
      · intro s hs
        rw [hm] at hs ⊢
        simp only at hs ⊢
        injection hs with hs
        subst hs
        rw [keyMem_mapUpdate]
        exact hinv _ hs₀
      · rw [hm]
        exact hinv

/-- Provenance of the passages recorded while processing a list of lines:
every passage of the final book was already present in the starting book, or
is a newline join of a non-empty list of strings each of which either was in
the starting passage buffer or is the non-blank strip of one of the processed
lines. -/
theorem passages_provenance {ls : List String} {st st₁ : PState}
    (h : processLines st ls = .ok st₁) :
    ∀ s c p, p ∈ passages st₁.book s c →
      p ∈ passages st.book s c ∨
        ∃ sub, sub ≠ [] ∧ p = pyJoin "\n" sub ∧
          ∀ x ∈ sub, x ∈ st.phrase ∨ ∃ l ∈ ls, x = pyStrip l ∧ pyStrip l ≠ "" := by
  induction ls generalizing st with
  | nil =>
    intro s c p hp
    simp only [processLines] at h
    injection h with h₁
    subst h₁
    exact Or.inl hp
  | cons l t ih =>
    intro s c p hp
    simp only [processLines] at h
    cases hst : step st l with
    | error e => rw [hst] at h; exact absurd h (by simp)
    | ok stm =>
      rw [hst] at h
      have IH := ih h s c p hp
      rcases step_ok_cases hst with
        ⟨_, _, hm⟩ | ⟨_, _, s₀, _, _, hnew, hm⟩ | ⟨_, _, _, _, hbl, hm⟩ |
        ⟨_, _, _, hpne, s₀, c₀, _, _, _, _, hm⟩ | ⟨_, _, hm⟩
      · -- new section: book grows by an empty section, buffer cleared
        rcases IH with hold | ⟨sub, hne, hj, hx⟩
        · rw [hm] at hold
          simp only at hold
          rw [passages_append_new] at hold
          exact Or.inl hold
        · refine Or.inr ⟨sub, hne, hj, ?_⟩
          intro x hxs
          rcases hx x hxs with hx₁ | ⟨l₂, hl₂, he⟩
          · rw [hm] at hx₁
            simp at hx₁
          · exact Or.inr ⟨l₂, List.mem_cons_of_mem _ hl₂, he⟩
      · -- new chapter: passages unchanged, buffer unchanged
        rcases IH with hold | ⟨sub, hne, hj, hx⟩
        · rw [hm] at hold
          simp only at hold
          rw [passages_mapUpdate_addchap hnew] at hold
          exact Or.inl hold
        · refine Or.inr ⟨sub, hne, hj, ?_⟩
          intro x hxs
          rcases hx x hxs with hx₁ | ⟨l₂, hl₂, he⟩
          · rw [hm] at hx₁
            exact Or.inl hx₁
          · exact Or.inr ⟨l₂, List.mem_cons_of_mem _ hl₂, he⟩
      · -- content line: buffer grows by the stripped line
        rcases IH with hold | ⟨sub, hne, hj, hx⟩
        · rw [hm] at hold
          exact Or.inl hold
        · refine Or.inr ⟨sub, hne, hj, ?_⟩
          intro x hxs
          rcases hx x hxs with hx₁ | ⟨l₂, hl₂, he⟩
          · rw [hm] at hx₁
            simp only [List.mem_append, List.mem_singleton] at hx₁
            rcases hx₁ with hx₂ | hx₂
            · exact Or.inl hx₂
            · exact Or.inr ⟨l, List.mem_cons_self _ _, hx₂, hx₂ ▸ hbl⟩
          · exact Or.inr ⟨l₂, List.mem_cons_of_mem _ hl₂, he⟩
      · -- blank line with a non-empty buffer: the buffer is flushed
        rcases IH with hold | ⟨sub, hne, hj, hx⟩
        · rw [hm] at hold
          simp only at hold
          rcases mem_passages_mapUpdate_append hold with h₁ | h₁
          · exact Or.inl h₁
          · refine Or.inr ⟨st.phrase, hpne, h₁, ?_⟩
            intro x hxs
            exact Or.inl hxs
        · refine Or.inr ⟨sub, hne, hj, ?_⟩
          intro x hxs
          rcases hx x hxs with hx₁ | ⟨l₂, hl₂, he⟩
          · rw [hm] at hx₁
            simp at hx₁
          · exact Or.inr ⟨l₂, List.mem_cons_of_mem _ hl₂, he⟩
      · -- ignored or no-op line: nothing changes
        rcases IH with hold | ⟨sub, hne, hj, hx⟩
        · rw [hm] at hold
          exact Or.inl hold
        · refine Or.inr ⟨sub, hne, hj, ?_⟩
          intro x hxs
          rcases hx x hxs with hx₁ | ⟨l₂, hl₂, he⟩
          · rw [hm] at hx₁
            exact Or.inl hx₁
          · exact Or.inr ⟨l₂, List.mem_cons_of_mem _ hl₂, he⟩

/-! ### The claims -/

/-- C1: a non-empty passage buffer remaining at end of input is not flushed.
If the run of the parser ends in a state with an active section and chapter
and a non-empty passage buffer, the returned Book is exactly the book of that
state (the buffered trailing passage is absent from it), whereas processing
one extra blank line would have appended the buffered passage to the current
chapter.  Instantiated at the six-line document of the claim (no blank line
after Line C) the returned Book keeps only the passage joining Line A and
Line B; see the witness. -/
theorem claim1_trailing_passage_not_flushed (ls : List String) (st : PState)
    (s c : String) (hrun : processLines initState ls = .ok st)
    (hs : st.sec = some s) (hc : st.chap = some c) (hs' : s ≠ "") (hc' : c ≠ "")
    (hp : st.phrase ≠ []) :
    parse_book ls = .ok st.book ∧
    parse_book (ls ++ [""]) = .ok (mapUpdate s
      (mapUpdate c (fun ps => ps ++ [pyJoin "\n" st.phrase])) st.book) := by
  refine ⟨parse_book_eq_ok hrun, ?_⟩
  have happ := processLines_append_ok [""] hrun
  have hts : truthy st.sec = true := by
    rw [hs]
    exact truthy_some.mpr hs'
  have htc : truthy st.chap = true := by
    rw [hc]
    have : truthy (some c) = true ↔ c ≠ "" := by simp [truthy]
    exact this.mpr hc'
  have hstep : step st "" = .ok ⟨mapUpdate s
      (mapUpdate c (fun ps => ps ++ [pyJoin "\n" st.phrase])) st.book,
      st.sec, st.chap, []⟩ :=
    step_blank_flush rfl rfl hs hc hts htc rfl hp
  unfold parse_book
  rw [happ]
  simp only [processLines]
  rw [hstep]

/-- Witness for C1: the six-line document of the claim parses to the
one-passage book, the trailing passage Line C being absent, while the same
document with one more blank line records it. -/
theorem claim1_trailing_passage_not_flushed_witness :
    parse_book docNoTrail = .ok bookOne ∧
    parse_book (docNoTrail ++ [""]) = .ok (mapUpdate "Section One"
      (mapUpdate "1" (fun ps => ps ++ [pyJoin "\n" ["Line C"]])) bookOne) :=
  claim1_trailing_passage_not_flushed docNoTrail
    ⟨bookOne, some "Section One", some "1", ["Line C"]⟩ "Section One" "1"
    rfl rfl rfl (by decide) (by decide) (by decide)

/-- C2 counterexample: the document frozen in the claim (six lines, ending
with the line Line C and no trailing blank line) parses to the one-passage
book, which is not the claimed two-passage book. -/
theorem claim2_counterexample :
    parse_book docNoTrail = .ok bookOne ∧ bookOne ≠ bookTwo :=
  ⟨rfl, by decide⟩

/-- C2 amended: the same document followed by a trailing blank line parses to
the claimed two-passage book, with consecutive non-blank lines joined by
newlines and passages delimited by the interior blank line. -/
theorem claim2_amended_trailing_blank : parse_book docTrail = .ok bookTwo := rfl

/-- C4: on the two-passage single-chapter book the selector returns, for
every outcome of the two random choices, the fixed title and the two
passages joined by a double newline; in general it returns the title built
from the chosen section and chapter names and the chosen chapter passages
joined by a double newline. -/
theorem claim4_selector_result :
    (∀ i j, random_phrase bookTwo i j =
      .ok ("Section One - Chapter 1", "Line A\nLine B\n\nLine C")) ∧
    (∀ (book : Book) (i j : Nat), book ≠ [] → (chosenSec book i).2 ≠ [] →
      random_phrase book i j = .ok ((chosenSec book i).1 ++ " - Chapter " ++
        (chosenChap book i j).1, pyJoin "\n\n" (chosenChap book i j).2)) := by
  constructor
  · intro i j
    have h1 : i % bookTwo.length = 0 := Nat.mod_one i
    have h2 : j % ([("1", ["Line A\nLine B", "Line C"])] : Chapters).length = 0 :=
      Nat.mod_one j
    unfold random_phrase
    rw [if_neg (by decide)]
    simp only [bookTwo] at h1 ⊢
    rw [h1]
    rw [if_neg (by decide)]
    simp only [List.getD_cons_zero]
    rw [h2]
    rfl
  · intro book i j hb hc
    have hlen : ¬ book.length = 0 := fun h => hb (List.length_eq_zero.mp h)
    have hlen2 : ¬ (book.getD (i % book.length) ("", [])).2.length = 0 :=
      fun h => hc (List.length_eq_zero.mp h)
    unfold random_phrase
    rw [if_neg hlen]
    rw [if_neg hlen2]
    rfl

/-- Witness for C4: concrete random indices on the two books. -/
theorem claim4_selector_result_witness :
    random_phrase bookTwo 0 0 =
      .ok ("Section One - Chapter 1", "Line A\nLine B\n\nLine C") ∧
    random_phrase bookOne 3 5 = .ok ((chosenSec bookOne 3).1 ++ " - Chapter " ++
      (chosenChap bookOne 3 5).1, pyJoin "\n\n" (chosenChap bookOne 3 5).2) :=
  ⟨claim4_selector_result.1 0 0,
   claim4_selector_result.2 bookOne 3 5 (by decide) (by decide)⟩

/-- C6: the selector fails with EmptyBookError on a book with no sections,
fails with EmptyChapterError when the chosen section has no chapters, and
succeeds under the two preconditions. -/
theorem claim6_selector_preconditions (book : Book) (i j : Nat) :
    (book = [] → random_phrase book i j = .error .EmptyBookError) ∧
    (book ≠ [] → (chosenSec book i).2 = [] →
      random_phrase book i j = .error .EmptyChapterError) ∧
    (book ≠ [] → (chosenSec book i).2 ≠ [] →
      ∃ t m, random_phrase book i j = .ok (t, m)) := by
  refine ⟨?_, ?_, ?_⟩
  · intro h
    subst h
    rfl
  · intro hb hc
    have hlen : ¬ book.length = 0 := fun h => hb (List.length_eq_zero.mp h)
    have hc' : (book.getD (i % book.length) ("", [])).2.length = 0 := by
      have hc₂ : (chosenSec book i).2 = [] := hc
      unfold chosenSec at hc₂
      rw [hc₂]
      rfl
    unfold random_phrase
    rw [if_neg hlen, if_pos hc']
  · intro hb hc
    have hlen : ¬ book.length = 0 := fun h => hb (List.length_eq_zero.mp h)
    have hlen2 : ¬ (book.getD (i % book.length) ("", [])).2.length = 0 :=
      fun h => hc (List.length_eq_zero.mp h)
    unfold random_phrase
    rw [if_neg hlen, if_neg hlen2]
    exact ⟨_, _, rfl⟩

/-- Witness for C6: the empty book, a book whose only section has no
chapters, and the two-passage book. -/
theorem claim6_selector_preconditions_witness :
    random_phrase [] 0 0 = .error .EmptyBookError ∧
    random_phrase [("S", [])] 1 2 = .error .EmptyChapterError ∧
    ∃ t m, random_phrase bookTwo 4 9 = .ok (t, m) :=
  ⟨(claim6_selector_preconditions [] 0 0).1 rfl,
   (claim6_selector_preconditions [("S", [])] 1 2).2.1 (by decide) (by decide),
   (claim6_selector_preconditions bookTwo 4 9).2.2 (by decide) (by decide)⟩

/-- C7: a level-2 heading processed while the passage buffer is non-empty
neither flushes the buffer into the previous chapter nor discards it: the
buffer is unchanged, no recorded passage list changes, and the current
chapter becomes the new one — so the buffered lines end up in the first
passage recorded in the new chapter, as the concrete document shows (the
line A, accumulated under chapter 1, opens the passage recorded in
chapter 2). -/
theorem claim7_buffer_carried_into_new_chapter :
    (∀ st l stm, truthy st.sec = true → isChap l = true →
      step st l = .ok stm →
      stm.phrase = st.phrase ∧ stm.chap = some (headName l) ∧
      ∀ s c, passages stm.book s c = passages st.book s c) ∧
    parse_book ["## S", "### 1", "A", "### 2", "B", ""] =
      .ok [("S", [("1", []), ("2", ["A\nB"])])] := by
  constructor
  · intro st l stm ht hch hst
    rcases step_ok_cases hst with ⟨hf, _, _⟩ |
      ⟨_, _, s₀, hs₀, _, hnew, hm⟩ | ⟨_, hchf, _, _, _, _⟩ |
      ⟨_, hchf, _, _, s₁, c₁, _, _, _, _, _⟩ | ⟨_, hdis, _⟩
    · rw [isSec_of_isChap hch] at hf
      exact absurd hf (by simp)
    · refine ⟨by rw [hm], by rw [hm], ?_⟩
      intro s c
      rw [hm]
      simp only
      exact passages_mapUpdate_addchap hnew s c
    · rw [hch] at hchf
      exact absurd hchf (by simp)
    · rw [hch] at hchf
      exact absurd hchf (by simp)
    · rcases hdis with hf | hf
      · rw [ht] at hf
        exact absurd hf (by simp)
      · rw [hch] at hf
        exact absurd hf (by simp)
  · rfl

/-- Witness for C7: stepping the state holding buffer [A] under chapter 1
over the heading of chapter 2 keeps the buffer and all recorded passages. -/
theorem claim7_buffer_carried_into_new_chapter_witness :
    (⟨[("S", [("1", []), ("2", [])])], some "S", some "2", ["A"]⟩ :
      PState).phrase = ["A"] ∧
    passages [("S", [("1", []), ("2", [])])] "S" "1" =
      passages [("S", [("1", [])])] "S" "1" := by
  have h := claim7_buffer_carried_into_new_chapter.1
    ⟨[("S", [("1", [])])], some "S", some "1", ["A"]⟩ "### 2"
    ⟨[("S", [("1", []), ("2", [])])], some "S", some "2", ["A"]⟩ rfl rfl rfl
  exact ⟨h.1, h.2.2 "S" "1"⟩

/-- C9: a line is treated as a section heading exactly when it begins with
two hash marks and a space, the recorded section name being the remaining
text trimmed of surrounding whitespace; while a section is active, a line is
treated as a chapter heading exactly when it begins with three hash marks
and a space, the recorded chapter name being the remaining trimmed text. -/
theorem claim9_heading_recognition (st : PState) (l : String) :
    (isSec l = true → ∀ stm, step st l = .ok stm →
      stm.sec = some (pyStrip (String.mk (l.data.drop 3)))) ∧
    (isSec l = false → ∀ stm, step st l = .ok stm → stm.sec = st.sec) ∧
    (truthy st.sec = true → isChap l = true → ∀ stm, step st l = .ok stm →
      stm.chap = some (pyStrip (String.mk (l.data.drop 4)))) ∧
    (isSec l = false → isChap l = false → ∀ stm, step st l = .ok stm →
      stm.chap = st.chap) := by
  refine ⟨?_, ?_, ?_, ?_⟩
  · intro hsec stm hst
    obtain ⟨r, hr⟩ := isSec_iff.mp hsec
    rcases step_ok_cases hst with ⟨_, _, hm⟩ | ⟨hf, _, _⟩ |
      ⟨hf, _, _, _, _, _⟩ | ⟨hf, _, _, _, _⟩ | ⟨hf, _, _⟩
    · rw [hm]
      simp only
      rw [headName_sec hr]
    · rw [hsec] at hf
      exact absurd hf (by simp)
    · rw [hsec] at hf
      exact absurd hf (by simp)
    · rw [hsec] at hf
      exact absurd hf (by simp)
    · rw [hsec] at hf
      exact absurd hf (by simp)
  · intro hsec stm hst
    rcases step_ok_cases hst with ⟨hf, _, _⟩ | ⟨_, _, s₀, hs₀, _, _, hm⟩ |
      ⟨_, _, _, _, _, hm⟩ | ⟨_, _, _, _, s₀, c₀, hs₀, _, _, _, hm⟩ | ⟨_, _, hm⟩
    · rw [hsec] at hf
      exact absurd hf (by simp)
    · rw [hm]
      simp only
      exact hs₀.symm
    · rw [hm]
    · rw [hm]
      simp only
      exact hs₀.symm
    · rw [hm]
  · intro ht hch stm hst
    obtain ⟨r, hr⟩ := isChap_iff.mp hch
    rcases step_ok_cases hst with ⟨hf, _, _⟩ | ⟨_, _, s₀, _, _, _, hm⟩ |
      ⟨_, hchf, _, _, _, _⟩ | ⟨_, hchf, _, _, s₁, c₁, _, _, _, _, _⟩ |
      ⟨_, hdis, _⟩
    · rw [isSec_of_isChap hch] at hf
      exact absurd hf (by simp)
    · rw [hm]
      simp only
      rw [headName_chap hr]
    · rw [hch] at hchf
      exact absurd hchf (by simp)
    · rw [hch] at hchf
      exact absurd hchf (by simp)
    · rcases hdis with hf | hf
      · rw [ht] at hf
        exact absurd hf (by simp)
      · rw [hch] at hf
        exact absurd hf (by simp)
  · intro hsec hch stm hst
    rcases step_ok_cases hst with ⟨hf, _, _⟩ | ⟨_, hchf, _⟩ |
      ⟨_, _, _, _, _, hm⟩ | ⟨_, _, _, _, s₀, c₀, _, _, hc₀, _, hm⟩ | ⟨_, _, hm⟩
    · rw [hsec] at hf
      exact absurd hf (by simp)
    · rw [hch] at hchf
      exact absurd hchf (by simp)
    · rw [hm]
    · rw [hm]
      simp only
      exact hc₀.symm
    · rw [hm]

/-- Witness for C9: a section heading with extra whitespace records the
trimmed remainder after the two-hash marker, and a chapter heading records
the trimmed remainder after the three-hash marker. -/
theorem claim9_heading_recognition_witness :
    (⟨[("Tao", [])], some "Tao", none, []⟩ : PState).sec =
      some (pyStrip (String.mk (("##  Tao ").data.drop 3))) ∧
    (⟨[("Tao", [("5", [])])], some "Tao", some "5", []⟩ : PState).chap =
      some (pyStrip (String.mk (("###  5 ").data.drop 4))) := by
  refine ⟨?_, ?_⟩
  · exact (claim9_heading_recognition initState "##  Tao ").1 rfl
      ⟨[("Tao", [])], some "Tao", none, []⟩ rfl
  · exact (claim9_heading_recognition
      ⟨[("Tao", [])], some "Tao", none, []⟩ "###  5 ").2.2.1 rfl rfl
      ⟨[("Tao", [("5", [])])], some "Tao", some "5", []⟩ rfl

/-- Helper for C10: from the initial state, lines that are not level-1
headings leave the state unchanged. -/
theorem processLines_no_sec_init {pre : List String}
    (h : ∀ l ∈ pre, isSec l = false) :
    processLines initState pre = .ok initState := by
  induction pre with
  | nil => rfl
  | cons l t ih =>
    simp only [processLines]
    rw [@step_ignored_nosec initState l (h l (List.mem_cons_self _ _)) rfl]
    exact ih (fun l₂ h₂ => h l₂ (List.mem_cons_of_mem _ h₂))

/-- C10: lines preceding the first level-1 heading are silently ignored:
they leave the parser state equal to the initial state, and the Book
returned for the whole document equals the Book of the remainder alone. -/
theorem claim10_preamble_ignored (pre rest : List String)
    (h : ∀ l ∈ pre, isSec l = false) :
    processLines initState pre = .ok initState ∧
    parse_book (pre ++ rest) = parse_book rest := by
  refine ⟨processLines_no_sec_init h, ?_⟩
  unfold parse_book
  rw [processLines_append_ok rest (processLines_no_sec_init h)]

/-- Witness for C10: a preamble of a content line, a level-2 heading and a
blank line changes nothing. -/
theorem claim10_preamble_ignored_witness :
    processLines initState ["intro text", "### Chapter", ""] = .ok initState ∧
    parse_book (["intro text", "### Chapter", ""] ++ docTrail) =
      parse_book docTrail :=
  claim10_preamble_ignored ["intro text", "### Chapter", ""] docTrail
    (by decide)

/-- Helper: the character data of an appended string. -/
theorem data_append (a b : String) : (a ++ b).data = a.data ++ b.data := by
  cases a
  cases b
  rfl

/-- C5: every passage of a Book returned by the parser is non-empty after
trimming: it is the newline join of a non-empty list of lines, each of which
is non-blank and already stripped of surrounding whitespace. -/
theorem claim5_passages_nonblank (ls : List String) (b : Book)
    (hok : parse_book ls = .ok b) :
    ∀ s c p, p ∈ passages b s c →
      pyStrip p ≠ "" ∧
      ∃ sub, sub ≠ [] ∧ p = pyJoin "\n" sub ∧
        ∀ x ∈ sub, x ≠ "" ∧ pyStrip x = x := by
  obtain ⟨st, hrun, hb⟩ := parse_book_ok_elim hok
  subst hb
  intro s c p hp
  rcases passages_provenance hrun s c p hp with hold | ⟨sub, hne, hj, hx⟩
  · simp [initState, passages, findD] at hold
  · have hx' : ∀ x ∈ sub, x ≠ "" ∧ pyStrip x = x := by
      intro x hxs
      rcases hx x hxs with hx₁ | ⟨l, hl, he, hne₂⟩
      · simp [initState] at hx₁
      · exact ⟨by rw [he]; exact hne₂, by rw [he]; exact pyStrip_idem l⟩
    refine ⟨?_, sub, hne, hj, hx'⟩
    obtain ⟨x₀, rest, hsub⟩ : ∃ x₀ rest, sub = x₀ :: rest := by
      cases sub with
      | nil => exact absurd rfl hne
      | cons a t => exact ⟨a, t, rfl⟩
    have hx₀ := hx' x₀ (by rw [hsub]; exact List.mem_cons_self _ _)
    obtain ⟨c₀, t₀, hd⟩ := string_ne_empty_data hx₀.1
    have hc₀ : isPySpace c₀ = false := pyStrip_eq_self_head hx₀.2 hd
    have hpd : ∃ t₂, p.data = c₀ :: t₂ := by
      rw [hj, hsub]
      cases rest with
      | nil => exact ⟨t₀, hd⟩
      | cons y ys =>
        refine ⟨t₀ ++ ("\n" ++ pyJoin "\n" (y :: ys)).data, ?_⟩
        have hjoin : pyJoin "\n" (x₀ :: y :: ys) =
            x₀ ++ ("\n" ++ pyJoin "\n" (y :: ys)) := by
          show x₀ ++ "\n" ++ pyJoin "\n" (y :: ys) = _
          rw [String.append_assoc]
        rw [hjoin, data_append, hd]
        rfl
    obtain ⟨t₂, hpd⟩ := hpd
    exact pyStrip_ne_empty hpd hc₀

/-- Witness for C5 at the two-passage document. -/
theorem claim5_passages_nonblank_witness :
    pyStrip "Line A\nLine B" ≠ "" ∧
    ∃ sub, sub ≠ [] ∧ "Line A\nLine B" = pyJoin "\n" sub ∧
      ∀ x ∈ sub, x ≠ "" ∧ pyStrip x = x :=
  claim5_passages_nonblank docTrail bookTwo rfl "Section One" "1"
    "Line A\nLine B" (by decide)

/-- C8: a level-1 heading line whose name is not yet in the Book resets the
current chapter to none and clears the passage buffer; consequently, when
processing resumes from an empty buffer, every newly recorded passage is
built solely from strips of lines processed after that point. -/
theorem claim8_section_heading_resets :
    (∀ st l, isSec l = true → keyMem (headName l) st.book = false →
      step st l = .ok ⟨st.book ++ [(headName l, [])], some (headName l),
        none, []⟩) ∧
    (∀ ls st st₁, st.phrase = [] → processLines st ls = .ok st₁ →
      ∀ s c p, p ∈ passages st₁.book s c →
        p ∈ passages st.book s c ∨
        ∃ sub, sub ≠ [] ∧ p = pyJoin "\n" sub ∧
          ∀ x ∈ sub, ∃ l ∈ ls, x = pyStrip l) := by
  constructor
  · intro st l h₁ h₂
    exact step_sec_new h₁ h₂
  · intro ls st st₁ hph hrun s c p hp
    rcases passages_provenance hrun s c p hp with hold | ⟨sub, hne, hj, hx⟩
    · exact Or.inl hold
    · refine Or.inr ⟨sub, hne, hj, ?_⟩
      intro x hxs
      rcases hx x hxs with hx₁ | ⟨l, hl, he, _⟩
      · rw [hph] at hx₁
        simp at hx₁
      · exact ⟨l, hl, he⟩

/-- Witness for C8: a fresh section heading resets chapter and buffer, and a
passage recorded after a state with an empty buffer comes only from the
lines processed afterwards. -/
theorem claim8_section_heading_resets_witness :
    step ⟨[("A", [("1", ["p"])])], some "A", some "1", ["x", "y"]⟩ "## B" =
      .ok ⟨[("A", [("1", ["p"])]), ("B", [])], some "B", none, []⟩ ∧
    ("a" ∈ passages [("A", [("1", [])])] "A" "1" ∨
      ∃ sub, sub ≠ [] ∧ "a" = pyJoin "\n" sub ∧
        ∀ x ∈ sub, ∃ l ∈ ["a", ""], x = pyStrip l) := by
  constructor
  · exact claim8_section_heading_resets.1
      ⟨[("A", [("1", ["p"])])], some "A", some "1", ["x", "y"]⟩ "## B" rfl rfl
  · exact claim8_section_heading_resets.2 ["a", ""]
      ⟨[("A", [("1", [])])], some "A", some "1", []⟩
      ⟨[("A", [("1", ["a"])])], some "A", some "1", []⟩ rfl rfl "A" "1" "a"
      (by decide)

/-- C3: the parser result and the duplicate structure of the document.
The parser either succeeds or fails with one of the two duplicate errors;
on success the recorded level-1 heading names are pairwise distinct and no
two level-2 heading lines with the same recorded name were processed under
the same active section; a duplicate-section failure exhibits two level-1
heading lines with the failing name, and a duplicate-chapter failure
exhibits two level-2 heading lines with the failing name processed under
the same active section.  The last two conjuncts instantiate the two
failures concretely. -/
theorem claim3_duplicate_errors (ls : List String) :
    ((∃ b, parse_book ls = .ok b) ∨
      (∃ n, parse_book ls = .error (.DuplicateSectionError n)) ∨
      (∃ c, parse_book ls = .error (.DuplicateChapterError c))) ∧
    (∀ b, parse_book ls = .ok b → (sectionNames ls).Nodup) ∧
    (∀ b, parse_book ls = .ok b →
      ∀ i j sti stj s c, i < j → j < ls.length →
        stateAt ls i = .ok sti → stateAt ls j = .ok stj →
        sti.sec = some s → stj.sec = some s → s ≠ "" →
        isChap (ls.getD i "") = true → isChap (ls.getD j "") = true →
        headName (ls.getD i "") = c → headName (ls.getD j "") = c → False) ∧
    (∀ n, parse_book ls = .error (.DuplicateSectionError n) →
      ∃ i j, i < j ∧ j < ls.length ∧ isSec (ls.getD i "") = true ∧
        isSec (ls.getD j "") = true ∧ headName (ls.getD i "") = n ∧
        headName (ls.getD j "") = n) ∧
    (∀ c, parse_book ls = .error (.DuplicateChapterError c) →
      ∃ i j s sti stj, i < j ∧ j < ls.length ∧
        stateAt ls i = .ok sti ∧ stateAt ls j = .ok stj ∧
        sti.sec = some s ∧ stj.sec = some s ∧ s ≠ "" ∧
        isChap (ls.getD i "") = true ∧ isChap (ls.getD j "") = true ∧
        headName (ls.getD i "") = c ∧ headName (ls.getD j "") = c) ∧
    parse_book ["## A", "x", "## A"] = .error (.DuplicateSectionError "A") ∧
    parse_book ["## A", "### 1", "y", "### 1"] =
      .error (.DuplicateChapterError "1") := by
  refine ⟨?_, ?_, ?_, ?_, ?_, rfl, rfl⟩
  · cases hp : parse_book ls with
    | ok b => exact Or.inl ⟨b, rfl⟩
    | error e =>
      cases e with
      | DuplicateSectionError n => exact Or.inr (Or.inl ⟨n, rfl⟩)
      | DuplicateChapterError c => exact Or.inr (Or.inr ⟨c, rfl⟩)
  · intro b hok
    obtain ⟨st, hrun, _⟩ := parse_book_ok_elim hok
    exact (sectionNames_nodup hrun).1
  · intro b hok i j sti stj s c hij hjlen hsti hstj hseci hsecj hsne hchi hchj
      hni hnj
    obtain ⟨st, hrun, _⟩ := parse_book_ok_elim hok
    obtain ⟨sti', sti₁, hsti', hsti₁, hstepi⟩ :=
      stateAt_succ_ok hrun (lt_trans hij hjlen)
    rw [hsti] at hsti'
    injection hsti' with he
    subst he
    have hsk : keyMem s sti.book = true := by
      refine sec_keyMem hsti (fun s₂ hs₂ => ?_) s hseci
      simp [initState] at hs₂
    rcases step_ok_cases hstepi with ⟨hf, _, _⟩ |
      ⟨_, _, s₀, hs₀, _, hnew, hm⟩ | ⟨_, hchf, _, _, _, _⟩ |
      ⟨_, hchf, _, _, s₁, c₁, _, _, _, _, _⟩ | ⟨_, hdis, _⟩
    · rw [isSec_of_isChap hchi] at hf
      exact absurd hf (by simp)
    · rw [hseci] at hs₀
      injection hs₀ with hss
      subst hss
      have hcmem : c ∈ keys (findD s sti₁.book []) := by
        rw [hm]
        simp only
        rw [findD_mapUpdate_self _ hsk, keys_append]
        refine List.mem_append_right _ ?_
        rw [← hni]
        show headName (ls.getD i "") ∈ [headName (ls.getD i "")]
        exact List.mem_singleton_self _
      have hseg := stateAt_trans (Nat.succ_le_of_lt hij) hsti₁ hstj
      have hcmem₂ := chapters_mono hseg hcmem
      obtain ⟨stj', stj₁, hstj', hstj₁, hstepj⟩ := stateAt_succ_ok hrun hjlen
      rw [hstj] at hstj'
      injection hstj' with he₂
      subst he₂
      have htsj : truthy stj.sec = true := by
        rw [hsecj]
        exact truthy_some.mpr hsne
      have hkm : keyMem (headName (ls.getD j "")) (findD s stj.book []) = true := by
        rw [hnj]
        exact keyMem_iff.mpr hcmem₂
      rw [step_chap_dup (isSec_of_isChap hchj) hsecj htsj hchj hkm] at hstepj
      exact absurd hstepj (by simp)
    · rw [hchi] at hchf
      exact absurd hchf (by simp)
    · rw [hchi] at hchf
      exact absurd hchf (by simp)
    · rcases hdis with hf | hf
      · rw [hseci] at hf
        simp [truthy] at hf
        exact hsne hf
      · rw [hchi] at hf
        exact absurd hf (by simp)
  · intro n herr
    have herr₂ := parse_book_error_elim herr
    obtain ⟨k, stk, hk, hrunk, hstepk⟩ := processLines_error_point herr₂
    rcases step_error_cases hstepk with ⟨hseck, hmem, hename⟩ |
      ⟨_, _, s, _, _, _, hename⟩
    · injection hename with hn
      have hmem₂ : headName (ls.getD k "") ∈ keys stk.book := keyMem_iff.mp hmem
      rcases keys_provenance hrunk _ hmem₂ with habs | ⟨i, hi, hseci, hnamei⟩
      · simp [initState, keys] at habs
      · have hik : i < k := by
          rw [List.length_take] at hi
          omega
        rw [getD_take "" hik] at hseci hnamei
        exact ⟨i, k, hik, hk, hseci, hseck, by rw [hnamei]; exact hn.symm,
          hn.symm⟩
    · exact absurd hename (by simp)
  · intro c herr
    have herr₂ := parse_book_error_elim herr
    obtain ⟨k, stk, hk, hrunk, hstepk⟩ := processLines_error_point herr₂
    rcases step_error_cases hstepk with ⟨_, _, hename⟩ |
      ⟨hnsec, hchk, s, hsk, hsne, hmem, hename⟩
    · exact absurd hename (by simp)
    · injection hename with hc
      have hmem₂ : headName (ls.getD k "") ∈ keys (findD s stk.book []) :=
        keyMem_iff.mp hmem
      rcases chapters_provenance hrunk s _ hmem₂ with habs |
        ⟨i, sti, hi, hruni, hseci, hsnei, hchi, hnamei⟩
      · simp [initState, findD, keys] at habs
      · have hik : i < k := by
          rw [List.length_take] at hi
          omega
        have htt : (ls.take k).take i = ls.take i := by
          rw [List.take_take]
          congr 1
          omega
        rw [htt] at hruni
        rw [getD_take "" hik] at hchi hnamei
        exact ⟨i, k, s, sti, stk, hik, hk, hruni, hrunk, hseci, hsk, hsne,
          hchi, hchk, by rw [hnamei]; exact hc.symm, hc.symm⟩

/-- Witness for C3: the successful two-passage document has pairwise
distinct section names, and the concrete duplicate-section failure exhibits
its two level-1 heading lines. -/
theorem claim3_duplicate_errors_witness :
    (sectionNames docTrail).Nodup ∧
    (∃ i j, i < j ∧ j < (["## A", "x", "## A"] : List String).length ∧
      isSec ((["## A", "x", "## A"] : List String).getD i "") = true ∧
      isSec ((["## A", "x", "## A"] : List String).getD j "") = true ∧
      headName ((["## A", "x", "## A"] : List String).getD i "") = "A" ∧
      headName ((["## A", "x", "## A"] : List String).getD j "") = "A") :=
  ⟨(claim3_duplicate_errors docTrail).2.1 bookTwo rfl,
   (claim3_duplicate_errors ["## A", "x", "## A"]).2.2.2.1 "A" rfl⟩

end TaoBot
